import Mathlib

/-!
Shallow embedding of the `emulator` crate (file `crates/emulator/src/emulator.rs`):
a digital-logic circuit emulator with a node tree (`Component`), bounds
validation (`check_bounds`), single-assignment evaluation (`emulate`) and
exhaustive truth-table enumeration (`emulate_all`).

Modelling conventions:
* Rust `usize` values become `Nat` (all arithmetic in the source stays far below
  2^64 whenever it is reached, so no wrap-around modelling is needed; the one
  place where the machine width matters, the `assert!` in `emulate_all`, is
  modelled through the explicit constants `USIZE_BYTES` / `USIZE_BITS`).
* `Result<T, Error>` becomes `Except Error T`.
* A Rust panic (a failed `assert!` or an out-of-bounds slice index) is modelled
  as `none` in an `Option` layer wrapped around the result.
* `Vec<Component>` inside gate nodes becomes the mutually inductive
  `ComponentList` (isomorphic to `List Component`); `ComponentList.ofList` /
  `ComponentList.toList` convert to ordinary lists for specification purposes.
-/

namespace Emu

/-- The `enum Error` of the source: `InputOutOfBounds { index, input_count }` and
`InvalidInputCount { supplied, expected }`. -/
inductive Error where
  | InputOutOfBounds (index : Nat) (input_count : Nat)
  | InvalidInputCount (supplied : Nat) (expected : Nat)
  deriving DecidableEq, Repr

mutual

/-- The `enum Component`: an input reference leaf or a NOT/OR/AND/XOR gate.
The n-ary gates own an ordered sequence of children (`Vec<Component>` in the
source, `ComponentList` here). -/
inductive Component where
  | Input (index : Nat)
  | Not (c : Component)
  | Or (cs : ComponentList)
  | And (cs : ComponentList)
  | Xor (cs : ComponentList)

/-- The child sequence of an n-ary gate (`Vec<Component>` in the source). -/
inductive ComponentList where
  | nil
  | cons (c : Component) (cs : ComponentList)

end

/-- Convert a `ComponentList` to an ordinary list (order preserved). -/
def ComponentList.toList : ComponentList → List Component
  | .nil => []
  | .cons c cs => c :: cs.toList

/-- Build a `ComponentList` from an ordinary list (order preserved). -/
def ComponentList.ofList : List Component → ComponentList
  | [] => .nil
  | c :: cs => .cons c (ComponentList.ofList cs)

/-- Rust `Vec::push`: append one component at the end. -/
def ComponentList.push : ComponentList → Component → ComponentList
  | .nil, c => .cons c .nil
  | .cons a rest, c => .cons a (rest.push c)

/-- Rust `Vec::len`. -/
def ComponentList.length : ComponentList → Nat
  | .nil => 0
  | .cons _ rest => rest.length + 1

mutual

/-- Rust `Component::check_bounds`: an `Input` leaf fails with
`InputOutOfBounds` when its index is `>= input_count`; composite nodes
delegate to their children. -/
def Component.check_bounds : Component → Nat → Except Error Unit
  | .Input index, input_count =>
    if index ≥ input_count then
      .error (.InputOutOfBounds index input_count)
    else
      .ok ()
  | .Not c, n => c.check_bounds n
  | .Or cs, n => ComponentList.check_bounds cs n
  | .And cs, n => ComponentList.check_bounds cs n
  | .Xor cs, n => ComponentList.check_bounds cs n

/-- The `for input in &self.inputs { input.check_bounds(input_count)?; }` loop
shared by `OrGate`, `AndGate` and `XorGate`: propagates the first child
failure, succeeds when every child succeeds. -/
def ComponentList.check_bounds : ComponentList → Nat → Except Error Unit
  | .nil, _ => .ok ()
  | .cons c rest, n =>
    match c.check_bounds n with
    | .error e => .error e
    | .ok _ => ComponentList.check_bounds rest n

end

mutual

/-- Rust `Component::emulate`. Its `inputs[*index]` is a panicking slice index in the
source; the panic is modelled as `none`. -/
def Component.emulate : Component → List Bool → Option Bool
  | .Input index, inputs => inputs.get? index
  | .Not c, inputs => (c.emulate inputs).map (fun b => !b)
  | .Or cs, inputs => OrGate.emulate cs inputs
  | .And cs, inputs => AndGate.emulate cs inputs
  | .Xor cs, inputs => XorGate.emulate cs inputs false

/-- Rust `OrGate::emulate`: return `true` as soon as one child evaluates `true`,
`false` once all children evaluated `false`. A child panic propagates. -/
def OrGate.emulate : ComponentList → List Bool → Option Bool
  | .nil, _ => some false
  | .cons c rest, inputs =>
    match c.emulate inputs with
    | none => none
    | some true => some true
    | some false => OrGate.emulate rest inputs

/-- Rust `AndGate::emulate`: return `false` as soon as one child evaluates `false`,
`true` once all children evaluated `true`. A child panic propagates. -/
def AndGate.emulate : ComponentList → List Bool → Option Bool
  | .nil, _ => some true
  | .cons c rest, inputs =>
    match c.emulate inputs with
    | none => none
    | some false => some false
    | some true => AndGate.emulate rest inputs

/-- Rust `XorGate::emulate` with its `check` accumulator (`false` at the top-level
call): returns `false` the instant a second `true` child is seen, otherwise
remembers in `check` whether a `true` child occurred. -/
def XorGate.emulate : ComponentList → List Bool → Bool → Option Bool
  | .nil, _, check => some check
  | .cons c rest, inputs, check =>
    match c.emulate inputs with
    | none => none
    | some result =>
      if result && check then some false
      else XorGate.emulate rest inputs (check || result)

end

/-- Free constructor `input(index)`. -/
def input (index : Nat) : Component := Component.Input index

/-- Free constructor `not(component)`. -/
def not (component : Component) : Component := Component.Not component

/-- Free constructor `or(components)`: collects the iterator into a vector by
pushing, then `assert!(inputs.len() > 1)` — the panic is modelled as `none`. -/
def or (components : List Component) : Option Component :=
  let inputs := components.foldl ComponentList.push ComponentList.nil
  if inputs.length > 1 then some (Component.Or inputs) else none

/-- Free constructor `and(components)`; panics (`none`) on fewer than two
operands. -/
def and (components : List Component) : Option Component :=
  let inputs := components.foldl ComponentList.push ComponentList.nil
  if inputs.length > 1 then some (Component.And inputs) else none

/-- Free constructor `xor(components)`; panics (`none`) on fewer than two
operands. -/
def xor (components : List Component) : Option Component :=
  let inputs := components.foldl ComponentList.push ComponentList.nil
  if inputs.length > 1 then some (Component.Xor inputs) else none

/-- Rust `struct Emulator { input_count, component }`. -/
structure Emulator where
  input_count : Nat
  component : Component

/-- Rust `Emulator::new`: validates the tree against `input_count` with
`check_bounds` and only then produces the handle. -/
def Emulator.new (input_count : Nat) (component : Component) :
    Except Error Emulator :=
  match component.check_bounds input_count with
  | .error e => .error e
  | .ok _ => .ok { input_count := input_count, component := component }

/-- Rust `Emulator::emulate`: rejects an assignment whose length differs from
`input_count` with `InvalidInputCount { supplied, expected }`, before any tree
traversal; otherwise evaluates the tree (whose possible panic is the inner
`Option`). -/
def Emulator.emulate (e : Emulator) (inputs : List Bool) :
    Except Error (Option Bool) :=
  if e.input_count ≠ inputs.length then
    .error (.InvalidInputCount inputs.length e.input_count)
  else
    .ok (e.component.emulate inputs)

/-- Rust `struct EmulationResult { input_count, states }`. -/
structure EmulationResult where
  input_count : Nat
  states : List Bool
  deriving DecidableEq, Repr

/-- The value of `size_of::<usize>()` on the 64-bit targets the crate builds for: 8 bytes.
This is the constant the source's `assert!` in `emulate_all` compares
`input_count` against. -/
def USIZE_BYTES : Nat := 8

/-- The bit width of `usize` on the same targets: 64 bits. -/
def USIZE_BITS : Nat := 64

/-- The inner loop of `emulate_all` that mutates the reused `inputs` vector:
`for bit_offset in 0..input_count { inputs[input_count - bit_offset - 1] =
((i >> bit_offset) & 1) != 0 }`. -/
def writeBits (input_count i : Nat) (inputs : List Bool) : List Bool :=
  (List.range input_count).foldl
    (fun acc bit_offset =>
      acc.set (input_count - bit_offset - 1) (((i >>> bit_offset) &&& 1) != 0))
    inputs

/-- The enumeration loop of `emulate_all` over the remaining counter values,
threading the reused `inputs` vector: each iteration rewrites the vector,
evaluates (`?` propagates an `Error`, a panic propagates as `none`) and
prepends its state to the collected tail. -/
def emulateAllLoop (e : Emulator) :
    List Nat → List Bool → Option (Except Error (List Bool))
  | [], _ => some (.ok [])
  | i :: rest, inputs =>
    let inputs' := writeBits e.input_count i inputs
    match e.emulate inputs' with
    | .error err => some (.error err)
    | .ok none => none
    | .ok (some state) =>
      match emulateAllLoop e rest inputs' with
      | none => none
      | some (.error err) => some (.error err)
      | some (.ok states) => some (.ok (state :: states))

/-- Rust `Emulator::emulate_all`: first `assert!(input_count < size_of::<usize>())`
(failure modelled as `none`), then enumerates counter values
`0 .. 2^input_count - 1` starting from the vector `vec![false; input_count]`. -/
def Emulator.emulate_all (e : Emulator) : Option (Except Error EmulationResult) :=
  if e.input_count < USIZE_BYTES then
    match emulateAllLoop e (List.range (2 ^ e.input_count))
        (List.replicate e.input_count false) with
    | none => none
    | some (.error err) => some (.error err)
    | some (.ok states) =>
      some (.ok { input_count := e.input_count, states := states })
  else
    none

/-- Specification-level description of the row-`i` assignment (§3 of the spec):
input index `j` receives bit `input_count - 1 - j` of the counter `i`, i.e.
bit `b` (0 = least significant) of `i` sits at input index
`input_count - 1 - b`. -/
def assignmentOf (input_count i : Nat) : List Bool :=
  (List.range input_count).map
    (fun j => ((i >>> (input_count - 1 - j)) &&& 1) != 0)

mutual

/-- All reachable `Input` indices of a tree, in the order the recursive walk
of `check_bounds` visits them. -/
def Component.refs : Component → List Nat
  | .Input index => [index]
  | .Not c => c.refs
  | .Or cs => ComponentList.refs cs
  | .And cs => ComponentList.refs cs
  | .Xor cs => ComponentList.refs cs

/-- All reachable `Input` indices below a child sequence, left to right. -/
def ComponentList.refs : ComponentList → List Nat
  | .nil => []
  | .cons c rest => c.refs ++ ComponentList.refs rest

end


/-! ## Conversion lemmas between `ComponentList` and `List Component` -/

theorem ComponentList.toList_ofList (l : List Component) :
    (ComponentList.ofList l).toList = l := by
  induction l with
  | nil => rfl
  | cons c rest ih => simp [ComponentList.ofList, ComponentList.toList, ih]

theorem ComponentList.ofList_toList : ∀ (cs : ComponentList),
    ComponentList.ofList cs.toList = cs
  | .nil => rfl
  | .cons c rest => by
    simp [ComponentList.ofList, ComponentList.toList,
      ComponentList.ofList_toList rest]

theorem ComponentList.toList_push : ∀ (cs : ComponentList) (c : Component),
    (cs.push c).toList = cs.toList ++ [c]
  | .nil, c => rfl
  | .cons a rest, c => by
    simp [ComponentList.push, ComponentList.toList,
      ComponentList.toList_push rest c]

theorem ComponentList.length_eq_toList_length : ∀ (cs : ComponentList),
    cs.length = cs.toList.length
  | .nil => rfl
  | .cons a rest => by
    simp [ComponentList.length, ComponentList.toList,
      ComponentList.length_eq_toList_length rest]

theorem foldl_push_toList (l : List Component) (acc : ComponentList) :
    (l.foldl ComponentList.push acc).toList = acc.toList ++ l := by
  induction l generalizing acc with
  | nil => simp
  | cons c rest ih => simp [List.foldl_cons, ih, ComponentList.toList_push]

theorem foldl_push_nil (l : List Component) :
    l.foldl ComponentList.push ComponentList.nil = ComponentList.ofList l := by
  have h := congrArg ComponentList.ofList (foldl_push_toList l ComponentList.nil)
  simpa [ComponentList.ofList_toList, ComponentList.toList] using h

/-! ## Validation: `check_bounds` reports the first out-of-bounds reference -/

/-- The validation outcome determined by the first out-of-bounds reference, if
any: used to characterise `check_bounds`. -/
def boundsResult (n : Nat) (o : Option Nat) : Except Error Unit :=
  match o with
  | some j => .error (.InputOutOfBounds j n)
  | none => .ok ()

mutual

theorem Component.check_bounds_eq_find (c : Component) (n : Nat) :
    c.check_bounds n = boundsResult n (c.refs.find? (fun j => decide (n ≤ j))) := by
  cases c with
  | Input index =>
    by_cases h : n ≤ index <;>
      simp [Component.check_bounds, Component.refs, List.find?, h, boundsResult,
        ge_iff_le]
  | Not c => simpa [Component.check_bounds, Component.refs] using
      Component.check_bounds_eq_find c n
  | Or cs => simpa [Component.check_bounds, Component.refs] using
      ComponentList.check_bounds_list_eq_find cs n
  | And cs => simpa [Component.check_bounds, Component.refs] using
      ComponentList.check_bounds_list_eq_find cs n
  | Xor cs => simpa [Component.check_bounds, Component.refs] using
      ComponentList.check_bounds_list_eq_find cs n

theorem ComponentList.check_bounds_list_eq_find (cs : ComponentList) (n : Nat) :
    cs.check_bounds n = boundsResult n (cs.refs.find? (fun j => decide (n ≤ j))) := by
  cases cs with
  | nil => simp [ComponentList.check_bounds, ComponentList.refs, boundsResult]
  | cons c rest =>
    have h1 := Component.check_bounds_eq_find c n
    have h2 := ComponentList.check_bounds_list_eq_find rest n
    rw [ComponentList.check_bounds, h1, h2]
    simp only [ComponentList.refs, List.find?_append]
    cases hf : c.refs.find? (fun j => decide (n ≤ j)) with
    | some j => simp [boundsResult, Option.or]
    | none => simp [boundsResult, Option.or]

end


/-! ## Gate loop semantics when every child evaluates -/

theorem OrGate.emulate_eq_any (l : List Component) (inputs : List Bool)
    (hs : ∀ c ∈ l, (c.emulate inputs).isSome) :
    OrGate.emulate (ComponentList.ofList l) inputs =
      some (l.any fun c => c.emulate inputs == some true) := by
  induction l with
  | nil => rfl
  | cons c rest ih =>
    obtain ⟨b, hb⟩ := Option.isSome_iff_exists.mp (hs c (by simp))
    have ih2 := ih (fun c' hc' => hs c' (by simp [hc']))
    cases b with
    | true => simp [ComponentList.ofList, OrGate.emulate, hb]
    | false => simp [ComponentList.ofList, OrGate.emulate, hb, ih2]

theorem AndGate.emulate_eq_all (l : List Component) (inputs : List Bool)
    (hs : ∀ c ∈ l, (c.emulate inputs).isSome) :
    AndGate.emulate (ComponentList.ofList l) inputs =
      some (l.all fun c => c.emulate inputs == some true) := by
  induction l with
  | nil => rfl
  | cons c rest ih =>
    obtain ⟨b, hb⟩ := Option.isSome_iff_exists.mp (hs c (by simp))
    have ih2 := ih (fun c' hc' => hs c' (by simp [hc']))
    cases b with
    | true => simp [ComponentList.ofList, AndGate.emulate, hb, ih2]
    | false => simp [ComponentList.ofList, AndGate.emulate, hb]

theorem XorGate.emulate_eq_count (l : List Component) (inputs : List Bool)
    (hs : ∀ c ∈ l, (c.emulate inputs).isSome) :
    ∀ check : Bool,
      XorGate.emulate (ComponentList.ofList l) inputs check =
        some (decide
          (l.countP (fun c => c.emulate inputs == some true) +
            (if check then 1 else 0) = 1)) := by
  induction l with
  | nil =>
    intro check
    cases check <;> simp [ComponentList.ofList, XorGate.emulate]
  | cons c rest ih =>
    intro check
    obtain ⟨b, hb⟩ := Option.isSome_iff_exists.mp (hs c (by simp))
    have ih2 := ih (fun c' hc' => hs c' (by simp [hc']))
    cases b with
    | true =>
      cases check with
      | true =>
        simp only [ComponentList.ofList, XorGate.emulate, hb, List.countP_cons]
        simp [hb]
      | false =>
        simp only [ComponentList.ofList, XorGate.emulate, hb, List.countP_cons]
        simp [hb, ih2]
    | false =>
      simp only [ComponentList.ofList, XorGate.emulate, hb, List.countP_cons]
      cases check <;> simp [hb, ih2]


/-! ## A validated tree never panics during evaluation -/

theorem ComponentList.check_bounds_cons_ok (c : Component) (rest : ComponentList)
    (n : Nat) :
    (ComponentList.cons c rest).check_bounds n = .ok () ↔
      c.check_bounds n = .ok () ∧ rest.check_bounds n = .ok () := by
  simp only [ComponentList.check_bounds]
  cases h : c.check_bounds n <;> simp

mutual

theorem Component.emulate_isSome (c : Component) (n : Nat) (inputs : List Bool)
    (hb : c.check_bounds n = .ok ()) (hl : inputs.length = n) :
    (c.emulate inputs).isSome := by
  cases c with
  | Input index =>
    by_cases h : index ≥ n
    · simp [Component.check_bounds, h] at hb
    · rw [Component.emulate]
      refine Option.isSome_iff_ne_none.mpr ?_
      rw [Ne, List.get?_eq_none]
      omega
  | Not c =>
    rw [Component.check_bounds] at hb
    have h := Component.emulate_isSome c n inputs hb hl
    simpa [Component.emulate] using h
  | Or cs =>
    rw [Component.check_bounds] at hb
    simpa [Component.emulate] using OrGate.emulate_isSome_or cs n inputs hb hl
  | And cs =>
    rw [Component.check_bounds] at hb
    simpa [Component.emulate] using AndGate.emulate_isSome_and cs n inputs hb hl
  | Xor cs =>
    rw [Component.check_bounds] at hb
    simpa [Component.emulate] using XorGate.emulate_isSome_xor cs n inputs false hb hl

theorem OrGate.emulate_isSome_or (cs : ComponentList) (n : Nat) (inputs : List Bool)
    (hb : cs.check_bounds n = .ok ()) (hl : inputs.length = n) :
    (OrGate.emulate cs inputs).isSome := by
  cases cs with
  | nil => simp [OrGate.emulate]
  | cons c rest =>
    obtain ⟨hc, hrest⟩ := (ComponentList.check_bounds_cons_ok c rest n).mp hb
    obtain ⟨b, hbe⟩ := Option.isSome_iff_exists.mp
      (Component.emulate_isSome c n inputs hc hl)
    cases b with
    | true => simp [OrGate.emulate, hbe]
    | false =>
      simpa [OrGate.emulate, hbe] using OrGate.emulate_isSome_or rest n inputs hrest hl

theorem AndGate.emulate_isSome_and (cs : ComponentList) (n : Nat) (inputs : List Bool)
    (hb : cs.check_bounds n = .ok ()) (hl : inputs.length = n) :
    (AndGate.emulate cs inputs).isSome := by
  cases cs with
  | nil => simp [AndGate.emulate]
  | cons c rest =>
    obtain ⟨hc, hrest⟩ := (ComponentList.check_bounds_cons_ok c rest n).mp hb
    obtain ⟨b, hbe⟩ := Option.isSome_iff_exists.mp
      (Component.emulate_isSome c n inputs hc hl)
    cases b with
    | false => simp [AndGate.emulate, hbe]
    | true =>
      simpa [AndGate.emulate, hbe] using AndGate.emulate_isSome_and rest n inputs hrest hl

theorem XorGate.emulate_isSome_xor (cs : ComponentList) (n : Nat) (inputs : List Bool)
    (check : Bool) (hb : cs.check_bounds n = .ok ()) (hl : inputs.length = n) :
    (XorGate.emulate cs inputs check).isSome := by
  cases cs with
  | nil => simp [XorGate.emulate]
  | cons c rest =>
    obtain ⟨hc, hrest⟩ := (ComponentList.check_bounds_cons_ok c rest n).mp hb
    obtain ⟨b, hbe⟩ := Option.isSome_iff_exists.mp
      (Component.emulate_isSome c n inputs hc hl)
    rw [XorGate.emulate, hbe]
    by_cases hcond : (b && check) = true
    · simp [hcond]
    · simpa [hcond] using
        XorGate.emulate_isSome_xor rest n inputs (check || b) hrest hl

end


/-! ## Constructor inversion -/

theorem Emulator.new_ok (n : Nat) (c : Component) (e : Emulator)
    (h : Emulator.new n c = .ok e) :
    c.check_bounds n = .ok () ∧ e = ⟨n, c⟩ := by
  unfold Emulator.new at h
  cases hb : c.check_bounds n with
  | error err => rw [hb] at h; exact absurd h (by simp)
  | ok u => rw [hb] at h; exact ⟨rfl, (Except.ok.inj h).symm⟩

theorem Emulator.new_of_check_bounds (n : Nat) (c : Component)
    (h : c.check_bounds n = .ok ()) : Emulator.new n c = .ok ⟨n, c⟩ := by
  unfold Emulator.new
  rw [h]

/-! ## The bit-assignment written by the enumeration loop -/

/-- Partial run of the inner loop of `emulate_all`: only the first `m` of the
`input_count` iterations. `writeBitsAux n i n v = writeBits n i v`. -/
def writeBitsAux (n i m : Nat) (inputs : List Bool) : List Bool :=
  (List.range m).foldl
    (fun acc bit_offset =>
      acc.set (n - bit_offset - 1) (((i >>> bit_offset) &&& 1) != 0))
    inputs

theorem writeBits_eq_aux (n i : Nat) (v : List Bool) :
    writeBits n i v = writeBitsAux n i n v := rfl

theorem writeBitsAux_succ (n i m : Nat) (v : List Bool) :
    writeBitsAux n i (m + 1) v =
      (writeBitsAux n i m v).set (n - m - 1) (((i >>> m) &&& 1) != 0) := by
  unfold writeBitsAux
  rw [List.range_succ, List.foldl_append]
  rfl

theorem writeBitsAux_length (n i m : Nat) (v : List Bool) :
    (writeBitsAux n i m v).length = v.length := by
  induction m with
  | zero => rfl
  | succ m ih => rw [writeBitsAux_succ, List.length_set, ih]

theorem writeBitsAux_get? (n i : Nat) (v : List Bool) (hv : v.length = n) :
    ∀ (m : Nat), m ≤ n → ∀ (j : Nat),
      (writeBitsAux n i m v).get? j =
        if n - m ≤ j ∧ j < n then some (((i >>> (n - 1 - j)) &&& 1) != 0)
        else v.get? j := by
  intro m
  induction m with
  | zero =>
    intro _ j
    rw [if_neg (by omega)]
    rfl
  | succ m ih =>
    intro hm j
    rw [writeBitsAux_succ]
    by_cases hj : j = n - m - 1
    · subst hj
      have hlt : n - m - 1 < (writeBitsAux n i m v).length := by
        rw [writeBitsAux_length, hv]; omega
      rw [List.get?_set_eq, List.get?_eq_get hlt]
      rw [if_pos (by omega)]
      have hbit : n - 1 - (n - m - 1) = m := by omega
      rw [hbit]
      rfl
    · rw [List.get?_set_ne _ _ (fun h => hj h.symm)]
      rw [ih (by omega) j]
      by_cases hc : n - m ≤ j ∧ j < n
      · rw [if_pos hc, if_pos (by omega)]
      · rw [if_neg hc, if_neg (by omega)]

theorem length_assignmentOf (n i : Nat) : (assignmentOf n i).length = n := by
  simp [assignmentOf]

theorem writeBits_eq_assignmentOf (n i : Nat) (v : List Bool)
    (hv : v.length = n) : writeBits n i v = assignmentOf n i := by
  apply List.ext
  intro j
  rw [writeBits_eq_aux, writeBitsAux_get? n i v hv n le_rfl j]
  by_cases hj : j < n
  · rw [if_pos ⟨by omega, hj⟩]
    rw [assignmentOf, List.get?_map, List.get?_range hj]
    rfl
  · rw [if_neg (by omega)]
    rw [List.get?_eq_none.mpr (by omega),
      List.get?_eq_none.mpr (by rw [length_assignmentOf]; omega)]

/-! ## The enumeration loop under a validated circuit -/

theorem emulateAllLoop_eq (e : Emulator)
    (hb : e.component.check_bounds e.input_count = .ok ()) :
    ∀ (is : List Nat) (v : List Bool), v.length = e.input_count →
      emulateAllLoop e is v =
        some (.ok (is.map fun i =>
          (e.component.emulate (assignmentOf e.input_count i)).getD false)) := by
  intro is
  induction is with
  | nil => intro v _; rfl
  | cons i rest ih =>
    intro v hv
    have hw : writeBits e.input_count i v = assignmentOf e.input_count i :=
      writeBits_eq_assignmentOf _ _ _ hv
    have hlen := length_assignmentOf e.input_count i
    obtain ⟨b, hbe⟩ := Option.isSome_iff_exists.mp
      (Component.emulate_isSome e.component e.input_count _ hb hlen)
    have hemu : e.emulate (assignmentOf e.input_count i) = .ok (some b) := by
      rw [Emulator.emulate, if_neg (by omega), hbe]
    rw [emulateAllLoop, hw, hemu, ih _ hlen]
    simp [hbe]

theorem emulateAll_eq (e : Emulator)
    (hb : e.component.check_bounds e.input_count = .ok ())
    (hn : e.input_count < USIZE_BYTES) :
    e.emulate_all = some (.ok ⟨e.input_count,
      (List.range (2 ^ e.input_count)).map fun i =>
        (e.component.emulate (assignmentOf e.input_count i)).getD false⟩) := by
  rw [Emulator.emulate_all, if_pos hn,
    emulateAllLoop_eq e hb _ _ (List.length_replicate _ _)]


/-! ## Further validation helpers -/

theorem check_bounds_ok_iff (c : Component) (n : Nat) :
    c.check_bounds n = .ok () ↔ ∀ j ∈ c.refs, j < n := by
  rw [Component.check_bounds_eq_find]
  cases hf : c.refs.find? (fun j => decide (n ≤ j)) with
  | some k =>
    have hk := List.find?_some hf
    have hmem := List.mem_of_find?_eq_some hf
    simp only [decide_eq_true_eq] at hk
    simp only [boundsResult]
    constructor
    · intro h; exact absurd h (by simp)
    · intro hall; exact absurd (hall k hmem) (by omega)
  | none =>
    simp only [boundsResult]
    constructor
    · intro _ j hj
      have := List.find?_eq_none.mp hf j hj
      simp only [decide_eq_true_eq] at this
      omega
    · intro _; trivial

/-! ## Claim theorems -/

/-- C1: for every XOR gate and every assignment under which each child
evaluates (no panic), evaluation returns `some true` iff exactly one child
evaluates to `true` — one-hot semantics, not iterated parity — and the
short-circuiting loop agrees with this count over the full child list. -/
theorem xorGate_one_hot (l : List Component) (inputs : List Bool)
    (hlen : 2 ≤ l.length)
    (hs : ∀ c ∈ l, (Component.emulate c inputs).isSome) :
    Component.emulate (Component.Xor (ComponentList.ofList l)) inputs =
      some (decide
        (l.countP (fun c => Component.emulate c inputs == some true) = 1)) := by
  rw [Component.emulate, XorGate.emulate_eq_count l inputs hs false]
  simp

/-- C1 witness: a 3-input XOR with two true children evaluates to `false`. -/
theorem xorGate_one_hot_witness :
    Component.emulate (Component.Xor (ComponentList.ofList
        [Component.Input 0, Component.Input 1, Component.Input 2]))
      [true, true, false] = some false := by
  have h := xorGate_one_hot
    [Component.Input 0, Component.Input 1, Component.Input 2]
    [true, true, false] (by decide) (by decide)
  rw [h]
  rfl

/-- C2: for a validly constructed circuit with `n` inputs, `n` below the
enumeration limit, `emulate_all` returns the table of exactly `2^n` rows in
increasing counter order; row `i` holds the evaluation of the circuit at the
assignment that places bit `b` of `i` at input index `n - 1 - b`. -/
theorem emulate_all_truth_table (n : Nat) (c : Component) (e : Emulator)
    (hnew : Emulator.new n c = .ok e) (hn : n < USIZE_BYTES) :
    e.emulate_all = some (.ok ⟨n, (List.range (2 ^ n)).map fun i =>
        (Component.emulate c (assignmentOf n i)).getD false⟩)
    ∧ ((List.range (2 ^ n)).map fun i =>
        (Component.emulate c (assignmentOf n i)).getD false).length = 2 ^ n
    ∧ (∀ i, i < 2 ^ n →
        ((List.range (2 ^ n)).map fun k =>
          (Component.emulate c (assignmentOf n k)).getD false).get? i =
          some ((Component.emulate c (assignmentOf n i)).getD false))
    ∧ (∀ i, i < 2 ^ n →
        e.emulate (assignmentOf n i) = .ok (Component.emulate c (assignmentOf n i)))
    ∧ (∀ i b, b < n →
        (assignmentOf n i).get? (n - 1 - b) = some (((i >>> b) &&& 1) != 0)) := by
  obtain ⟨hb, he⟩ := Emulator.new_ok n c e hnew
  subst he
  refine ⟨emulateAll_eq ⟨n, c⟩ hb hn, by simp, ?_, ?_, ?_⟩
  · intro i hi
    rw [List.get?_map, List.get?_range hi]
    rfl
  · intro i _
    rw [Emulator.emulate, if_neg (by simp [length_assignmentOf])]
  · intro i b hbn
    rw [assignmentOf, List.get?_map, List.get?_range (show n - 1 - b < n by omega)]
    simp only [Option.map_some']
    rw [show n - 1 - (n - 1 - b) = b from by omega]

/-- C2 witness: the 1-input circuit `Not(InputRef 0)` enumerates to the
two-row table `[true, false]`. -/
theorem emulate_all_truth_table_witness :
    (Emulator.mk 1 (Component.Not (Component.Input 0))).emulate_all =
      some (.ok ⟨1, [true, false]⟩) := by
  have h := emulate_all_truth_table 1 (Component.Not (Component.Input 0))
    (Emulator.mk 1 (Component.Not (Component.Input 0))) rfl (by decide)
  rw [h.1]
  rfl

/-- C3: the source's `assert!` compares `input_count` against
`size_of::<usize>()` — 8, the *byte* size — not against the 64-*bit* width: a
valid 8-input circuit is aborted by `emulate_all` even though `8` is far below
the bit width of the counter type. -/
theorem emulate_all_asserts_on_byte_size :
    Emulator.new 8 (Component.Or (ComponentList.ofList
        [Component.Input 0, Component.Input 1])) =
      .ok ⟨8, Component.Or (ComponentList.ofList
        [Component.Input 0, Component.Input 1])⟩
    ∧ (Emulator.mk 8 (Component.Or (ComponentList.ofList
        [Component.Input 0, Component.Input 1]))).emulate_all = none
    ∧ 8 < USIZE_BITS ∧ ¬ 8 < USIZE_BYTES :=
  ⟨rfl, rfl, by decide, by decide⟩

/-- C4: `check_bounds` fails iff some reachable input-reference index is out
of bounds, and on failure reports precisely the first offending leaf of the
left-to-right recursive walk via `InputOutOfBounds { index, input_count }`;
`Emulator::new` succeeds exactly when validation succeeds. -/
theorem check_bounds_first_out_of_bounds (c : Component) (n : Nat) :
    c.check_bounds n = boundsResult n (c.refs.find? (fun j => decide (n ≤ j)))
    ∧ (c.check_bounds n = .ok () ↔ ∀ j ∈ c.refs, j < n)
    ∧ ((∃ e, Emulator.new n c = .ok e) ↔ ∀ j ∈ c.refs, j < n) := by
  refine ⟨Component.check_bounds_eq_find c n, check_bounds_ok_iff c n, ?_, ?_⟩
  · rintro ⟨e, he⟩
    obtain ⟨hb, _⟩ := Emulator.new_ok n c e he
    exact (check_bounds_ok_iff c n).mp hb
  · intro hall
    exact ⟨⟨n, c⟩, Emulator.new_of_check_bounds n c
      ((check_bounds_ok_iff c n).mpr hall)⟩

/-- C5: `Emulator::emulate` fails with
`InvalidInputCount { supplied, expected }` exactly when the assignment length
differs from `input_count`; the check precedes any tree traversal (the error is
produced whatever the component is, even one whose evaluation would panic). -/
theorem emulate_length_mismatch (e : Emulator) (inputs : List Bool) :
    (inputs.length ≠ e.input_count →
      e.emulate inputs = .error (.InvalidInputCount inputs.length e.input_count))
    ∧ (inputs.length = e.input_count →
      e.emulate inputs = .ok (e.component.emulate inputs))
    ∧ (∀ err, e.emulate inputs = .error err →
        inputs.length ≠ e.input_count ∧
          err = .InvalidInputCount inputs.length e.input_count) := by
  refine ⟨?_, ?_, ?_⟩
  · intro h
    rw [Emulator.emulate, if_pos (by omega)]
  · intro h
    rw [Emulator.emulate, if_neg (by omega)]
  · intro err h
    by_cases hlen : e.input_count ≠ inputs.length
    · rw [Emulator.emulate, if_pos hlen] at h
      exact ⟨by omega, (Except.error.inj h).symm⟩
    · rw [Emulator.emulate, if_neg hlen] at h
      exact absurd h (by simp)

/-- C5 witness: a 2-input circuit evaluated on a 3-element assignment fails
with `InvalidInputCount { supplied := 3, expected := 2 }`. -/
theorem emulate_length_mismatch_witness :
    (Emulator.mk 2 (Component.Or (ComponentList.ofList
        [Component.Input 0, Component.Input 1]))).emulate [true, true, false] =
      .error (.InvalidInputCount 3 2) :=
  (emulate_length_mismatch
    (Emulator.mk 2 (Component.Or (ComponentList.ofList
      [Component.Input 0, Component.Input 1]))) [true, true, false]).1 (by decide)

/-- C6: for every OR gate, evaluation returns `true` iff at least one child
evaluates `true`, and for every AND gate iff all children evaluate `true` —
the short-circuiting loops agree with `any` / `all` over the whole child
list, whenever each child evaluates (no panic). -/
theorem orGate_andGate_semantics (l : List Component) (inputs : List Bool)
    (hs : ∀ c ∈ l, (Component.emulate c inputs).isSome) :
    Component.emulate (Component.Or (ComponentList.ofList l)) inputs =
      some (l.any fun c => Component.emulate c inputs == some true)
    ∧ Component.emulate (Component.And (ComponentList.ofList l)) inputs =
      some (l.all fun c => Component.emulate c inputs == some true) := by
  constructor
  · rw [Component.emulate]
    exact OrGate.emulate_eq_any l inputs hs
  · rw [Component.emulate]
    exact AndGate.emulate_eq_all l inputs hs

/-- C6 witness: `Or(InputRef 0, InputRef 1)` and `And(InputRef 0, InputRef 1)`
on the assignment `[false, true]`. -/
theorem orGate_andGate_semantics_witness :
    Component.emulate (Component.Or (ComponentList.ofList
        [Component.Input 0, Component.Input 1])) [false, true] = some true
    ∧ Component.emulate (Component.And (ComponentList.ofList
        [Component.Input 0, Component.Input 1])) [false, true] = some false := by
  have h := orGate_andGate_semantics [Component.Input 0, Component.Input 1]
    [false, true] (by decide)
  exact ⟨h.1.trans (by rfl), h.2.trans (by rfl)⟩

/-- C7: each of the `or`, `and`, `xor` constructors panics (modelled `none`)
iff fewer than two operands are supplied, and otherwise produces the
corresponding gate node holding the operands in the supplied order. -/
theorem gate_constructors_arity (l : List Component) :
    Emu.or l =
      (if 2 ≤ l.length then some (Component.Or (ComponentList.ofList l)) else none)
    ∧ Emu.and l =
      (if 2 ≤ l.length then some (Component.And (ComponentList.ofList l)) else none)
    ∧ Emu.xor l =
      (if 2 ≤ l.length then some (Component.Xor (ComponentList.ofList l)) else none) := by
  have hfold := foldl_push_nil l
  have hlen : (ComponentList.ofList l).length = l.length := by
    rw [ComponentList.length_eq_toList_length, ComponentList.toList_ofList]
  refine ⟨?_, ?_, ?_⟩
  · simp only [Emu.or, hfold, hlen]
    by_cases h : 1 < l.length
    · rw [if_pos h, if_pos (show 2 ≤ l.length from h)]
    · rw [if_neg h, if_neg (show ¬ 2 ≤ l.length from h)]
  · simp only [Emu.and, hfold, hlen]
    by_cases h : 1 < l.length
    · rw [if_pos h, if_pos (show 2 ≤ l.length from h)]
    · rw [if_neg h, if_neg (show ¬ 2 ≤ l.length from h)]
  · simp only [Emu.xor, hfold, hlen]
    by_cases h : 1 < l.length
    · rw [if_pos h, if_pos (show 2 ≤ l.length from h)]
    · rw [if_neg h, if_neg (show ¬ 2 ≤ l.length from h)]

/-- The hardcoded circuit of the test harness:
`And(InputRef 0, Or(InputRef 1, InputRef 2), Not(InputRef 3))`. -/
def exampleCircuit : Component :=
  Component.And (ComponentList.ofList
    [Component.Input 0,
     Component.Or (ComponentList.ofList [Component.Input 1, Component.Input 2]),
     Component.Not (Component.Input 3)])

/-- C8: the concrete 4-input circuit
`And(InputRef 0, Or(InputRef 1, InputRef 2), Not(InputRef 3))` validates,
evaluates to `true` on `[true, false, true, false]`, to `false` on
`[true, false, false, false]`, and enumerates to a 16-row table whose row 10
(binary 1010, assignment `[1,0,1,0]`) has output `1`. -/
theorem example_circuit_behavior :
    Emulator.new 4 exampleCircuit = .ok ⟨4, exampleCircuit⟩
    ∧ (Emulator.mk 4 exampleCircuit).emulate [true, false, true, false] =
        .ok (some true)
    ∧ (Emulator.mk 4 exampleCircuit).emulate [true, false, false, false] =
        .ok (some false)
    ∧ (Emulator.mk 4 exampleCircuit).emulate_all = some (.ok ⟨4,
        [false, false, false, false, false, false, false, false,
         false, false, true, false, true, false, true, false]⟩)
    ∧ ([false, false, false, false, false, false, false, false,
        false, false, true, false, true, false, true, false] : List Bool).length = 16
    ∧ ([false, false, false, false, false, false, false, false,
        false, false, true, false, true, false, true, false] : List Bool).get? 10 =
        some true
    ∧ assignmentOf 4 10 = [true, false, true, false] :=
  ⟨rfl, rfl, rfl, rfl, rfl, rfl, rfl⟩

/-- C9: evaluation of a circuit constructed through the validating
`Emulator::new`, on an assignment of the declared length, never reaches the
out-of-bounds branch of the slice index — it always produces a value. -/
theorem validated_emulate_isSome (n : Nat) (c : Component) (e : Emulator)
    (inputs : List Bool) (hnew : Emulator.new n c = .ok e)
    (hl : inputs.length = e.input_count) :
    (Component.emulate e.component inputs).isSome := by
  obtain ⟨hb, he⟩ := Emulator.new_ok n c e hnew
  subst he
  exact Component.emulate_isSome c n inputs hb hl

/-- C9 witness. -/
theorem validated_emulate_isSome_witness :
    (Component.emulate (Component.Not (Component.Input 0)) [true]).isSome :=
  validated_emulate_isSome 1 (Component.Not (Component.Input 0))
    (Emulator.mk 1 (Component.Not (Component.Input 0))) [true] rfl rfl

/-- C10: for a circuit constructed through the validating `Emulator::new`
whose `input_count` passes the enumeration assertion, `emulate_all` always
returns the success case — never the recoverable error variant and never a
panic. -/
theorem validated_emulate_all_ok (n : Nat) (c : Component) (e : Emulator)
    (hnew : Emulator.new n c = .ok e) (hn : e.input_count < USIZE_BYTES) :
    ∃ res, e.emulate_all = some (.ok res) := by
  obtain ⟨hb, he⟩ := Emulator.new_ok n c e hnew
  subst he
  exact ⟨_, emulateAll_eq ⟨n, c⟩ hb hn⟩

/-- C10 witness. -/
theorem validated_emulate_all_ok_witness :
    ∃ res, (Emulator.mk 1 (Component.Not (Component.Input 0))).emulate_all =
      some (.ok res) :=
  validated_emulate_all_ok 1 (Component.Not (Component.Input 0))
    (Emulator.mk 1 (Component.Not (Component.Input 0))) rfl (by decide)

end Emu
